import Mathlib

/-!
Verification of the wildlife video-analysis core of this repository.

The executable frontend code lives in `app.js` and in the wildlife-analysis
script (src/unnamed/part_002): `parseSpeciesFromAnalysis`,
`displayVLMResults`, `handleVideoUpload`, the drag-and-drop and file-input
handlers, and `handlePromptSubmission`.  Those are embedded below at the
character / value level, with the two JavaScript regular expressions of the
species parser translated into explicit recursive scanners.

The backend (`wildlife_backend.py` / `backend.py`) is not part of the source
tree; the frame extractor, sampler and orchestrator are modelled from the
specification (and from the repository's own debugging guides), as marked in
the corresponding doc comments.
-/

namespace Wildlife

/-! ### Character-level utilities for the JavaScript regexes -/

/-- Case canonicalization used by a JavaScript case-insensitive regex on
ASCII patterns: two characters match iff they agree after ASCII lowering
(a non-ASCII character never canonicalizes to an ASCII one in a non-unicode
regex, and both patterns below are pure ASCII). -/
def ciEq (a b : Char) : Bool := a.toLower == b.toLower

/-- `startsWithCI pat cs` : the pattern `pat` matches case-insensitively at
the head of `cs`. -/
def startsWithCI : List Char → List Char → Bool
  | [], _ => true
  | _ :: _, [] => false
  | p :: ps, c :: cs => ciEq p c && startsWithCI ps cs

/-- Index of the first case-insensitive occurrence of `pat` in the text,
as found by a JavaScript `String.match` scan. -/
def findIdxCI (pat : List Char) : List Char → Option Nat
  | [] => if startsWithCI pat [] then some 0 else none
  | c :: cs =>
    if startsWithCI pat (c :: cs) then some 0
    else (findIdxCI pat cs).map (· + 1)

/-- The section header literal of `parseSpeciesFromAnalysis`. -/
def speciesHeaderChars : List Char := ("SPECIES DETECTED:").data

/-- The analysis header literal that terminates the species block. -/
def detailedHeaderChars : List Char := ("DETAILED ANALYSIS:").data

/-- One alternative of the lookahead `(?=\n\n|DETAILED ANALYSIS:|$)` holds at
this position (the `$` alternative is the end-of-input default of
`findTermIdx` below).  The whole regex carries the `i` flag, so the
`DETAILED ANALYSIS:` alternative is also case-insensitive. -/
def termAt (cs : List Char) : Bool :=
  List.isPrefixOf ['\n', '\n'] cs || startsWithCI detailedHeaderChars cs

/-- Length of the lazy `(.*?)` match: the first position at which the
lookahead succeeds, or the end of the text (the `$` alternative, which in a
regex without the `m` flag only matches at the very end). -/
def findTermIdx : List Char → Nat
  | [] => 0
  | c :: cs => if termAt (c :: cs) then 0 else findTermIdx cs + 1

/-- JavaScript `\s` (also the character class trimmed by `String.trim`):
whitespace plus line terminators. -/
def jsWs (c : Char) : Bool :=
  c == ' ' || c == '\t' || c == '\n' || c == '\x0b' || c == '\x0c' ||
  c == '\r' || (0x00A0 == c.toNat) ||
  (0x1680 == c.toNat) || (0x2000 ≤ c.toNat && c.toNat ≤ 0x200A) ||
  (0x2028 == c.toNat) || (0x2029 == c.toNat) || (0x202F == c.toNat) ||
  (0x205F == c.toNat) || (0x3000 == c.toNat) || (0xFEFF == c.toNat)

/-- JavaScript line terminators: the characters `^`/`$` anchor around with
the `m` flag, and which `.` never matches without the `s` flag. -/
def lineTerm (c : Char) : Bool :=
  c == '\n' || c == '\r' || (0x2028 == c.toNat) || (0x2029 == c.toNat)

/-- Scanner state for the global multi-line regex `/^-\s*(.+)$/gm` of
`parseSpeciesFromAnalysis`.  `wsRun` records (most recent first) the
whitespace consumed so far by `\s*` after a dash at a line start; `capture`
records (most recent first) the characters consumed so far by `(.+)`. -/
inductive DashMode where
  | idle : DashMode
  | skipLine : DashMode
  | wsRun (seen : List Char) : DashMode
  | capture (acc : List Char) : DashMode

/-- All captured groups of `/^-\s*(.+)$/gm` on the block text, in match
order.  A match must begin with a dash at a line start; `\s*` then greedily
consumes whitespace (which, `\s` containing line terminators, may spill over
line breaks); `(.+)` captures the rest of the current line, which must be
non-empty.  When the input ends inside the whitespace run, backtracking
yields a match exactly when the run holds a non-line-terminator character,
whose last occurrence becomes a one-character captured group. -/
def dashCaptures : List Char → DashMode → List (List Char)
  | [], .capture acc => [acc.reverse]
  | [], .wsRun seen =>
    (match seen.find? (fun c => !lineTerm c) with
     | some c => [[c]]
     | none => [])
  | [], .idle => []
  | [], .skipLine => []
  | c :: cs, .idle =>
    if c == '-' then dashCaptures cs (.wsRun [])
    else if lineTerm c then dashCaptures cs .idle
    else dashCaptures cs .skipLine
  | c :: cs, .skipLine =>
    dashCaptures cs (if lineTerm c then .idle else .skipLine)
  | c :: cs, .wsRun seen =>
    if jsWs c then dashCaptures cs (.wsRun (c :: seen))
    else dashCaptures cs (.capture [c])
  | c :: cs, .capture acc =>
    if lineTerm c then acc.reverse :: dashCaptures cs .idle
    else dashCaptures cs (.capture (c :: acc))

/-- Left trim of JavaScript `String.trim`. -/
def trimLeftJS (cs : List Char) : List Char := cs.dropWhile jsWs

/-- Right trim of JavaScript `String.trim`: removes the maximal whitespace
suffix. -/
def trimRightJS : List Char → List Char
  | [] => []
  | c :: cs =>
    let r := trimRightJS cs
    if r.isEmpty && jsWs c then [] else c :: r

/-- JavaScript `String.trim` on the character list. -/
def trimJS (cs : List Char) : List Char := trimRightJS (trimLeftJS cs)

/-- One loop iteration of `parseSpeciesFromAnalysis`: trim the captured
group, then `if (species && !speciesList.includes(species))` push it. -/
def pushSpecies (acc : List (List Char)) (cap : List Char) : List (List Char) :=
  let species := trimJS cap
  if species.isEmpty then acc
  else if acc.contains species then acc
  else acc ++ [species]

/-- The `for (const match of matches)` loop over the species section. -/
def parseBlock (block : List Char) : List (List Char) :=
  (dashCaptures block .idle).foldl pushSpecies []

/-- Embedding of `parseSpeciesFromAnalysis` (wildlife-analysis script):
`analysis.match(/SPECIES DETECTED:(.*?)(?=\n\n|DETAILED ANALYSIS:|$)/is)`
selects the text between the first case-insensitive occurrence of the
header and the earliest following `\n\n` or `DETAILED ANALYSIS:` (or the
end); the captured groups of `/^-\s*(.+)$/gm` on that block are trimmed,
empty ones are dropped by the truthiness test, exact duplicates are
suppressed, and first-appearance order is kept.  Without a header match the
function returns the empty list. -/
def parseSpeciesFromAnalysis (analysis : String) : List String :=
  match findIdxCI speciesHeaderChars analysis.data with
  | none => []
  | some i =>
    let tail := analysis.data.drop (i + speciesHeaderChars.length)
    let block := tail.take (findTermIdx tail)
    (parseBlock block).map (fun cs => String.mk cs)

/-- The raw text contains the species header (case-insensitively), i.e. the
first regex of `parseSpeciesFromAnalysis` matches. -/
def containsSpeciesHeader (s : String) : Bool :=
  (findIdxCI speciesHeaderChars s.data).isSome

/-- The first species block of `s` is closed inside `s`: the lazy `(.*?)`
match after the first header occurrence ends at an actual `\n\n` or
`DETAILED ANALYSIS:` occurrence within `s` (either of the claim's two
terminators), not at the end-of-input `$` fallback.  Text appended after
such an `s` lies entirely beyond the first block. -/
def firstBlockClosed (s : String) : Bool :=
  match findIdxCI speciesHeaderChars s.data with
  | none => false
  | some i =>
    let u := s.data.drop (i + speciesHeaderChars.length)
    decide (findTermIdx u < u.length)

/-- Split a character list at every occurrence of the separator (the
semantics of `String.split` on a one-character separator). -/
def splitOnChar (sep : Char) : List Char → List (List Char)
  | [] => [[]]
  | c :: cs =>
    let r := splitOnChar sep cs
    if c == sep then [] :: r
    else
      match r with
      | [] => [[c]]
      | h :: t => (c :: h) :: t

/-- Follows the spec's words (Result Parser section contract, claim C1):
a line `SPECIES DETECTED:` (case-insensitive) begins a block; the block
ends at the next blank line or at a line beginning `DETAILED ANALYSIS:`;
within the block, every line starting with a dash yields a candidate (the
text after the dash), each candidate is trimmed, case-sensitive exact
duplicates are suppressed, and first-appearance order is preserved. -/
def specSectionParse (s : String) : List String :=
  let lines := splitOnChar '\n' s.data
  let isHeader := fun (l : List Char) =>
    l.map Char.toLower == ("species detected:").data
  match lines.findIdx? isHeader with
  | none => []
  | some i =>
    let rest := lines.drop (i + 1)
    let block := rest.takeWhile
      (fun l => !(l.isEmpty || List.isPrefixOf detailedHeaderChars l))
    let cands := (block.filter (fun l => List.isPrefixOf ['-'] l)).map
      (fun l => String.mk (trimJS (l.drop 1)))
    cands.foldl
      (fun acc c => if c == ("") then acc
        else if acc.contains c then acc else acc ++ [c]) []

/-! ### Result rendering (`displayVLMResults`) -/

/-- Video metadata as returned by the analyze endpoint (the JSON duration is
modelled in whole seconds; `displayVLMResults` floors it anyway). -/
structure VideoMetadata where
  fps : Nat
  duration : Nat
  width : Nat
  height : Nat
deriving DecidableEq, Repr

/-- The analyze-video response body consumed by `displayVLMResults`. -/
structure AnalysisResponse where
  analysis : String
  video_metadata : VideoMetadata
  frames_analyzed : Nat
deriving DecidableEq, Repr

/-- What `displayVLMResults` writes into the page: the summary-card texts,
the raw analysis handed to the Markdown renderer, and either the species
cards or the placeholder paragraph. -/
structure RenderedResults where
  speciesCount : String
  sightingsCount : String
  analysisDuration : String
  aiSummaryContent : String
  speciesCards : List String
  speciesPlaceholder : Bool
deriving DecidableEq, Repr

/-- `padStart(2, '0')` from `displayVLMResults`. -/
def padTwo (n : Nat) : String :=
  let s := toString n
  if s.length < 2 then ("0") ++ s else s

/-- Embedding of `displayVLMResults`: parses the species list from the raw
analysis, fills the summary cards (`length || '—'` renders a dash for zero),
hands the unabridged raw analysis text to the summary renderer, and shows
species cards when the list is non-empty, otherwise the placeholder text. -/
def displayVLMResults (d : AnalysisResponse) : RenderedResults :=
  let speciesList := parseSpeciesFromAnalysis d.analysis
  let dur := d.video_metadata.duration
  { speciesCount := if speciesList.length == 0 then ("—") else toString speciesList.length
    sightingsCount := if d.frames_analyzed == 0 then ("—") else toString d.frames_analyzed
    analysisDuration := toString (dur / 60) ++ (":") ++ padTwo (dur % 60)
    aiSummaryContent := d.analysis
    speciesCards := speciesList
    speciesPlaceholder := speciesList.isEmpty }

/-! ### Upload boundary (`handleVideoUpload` and the two input paths) -/

/-- The 500 MB ceiling of `handleVideoUpload` (`500 * 1024 * 1024`). -/
def maxVideoSize : Nat := 500 * 1024 * 1024

/-- The fields of a browser `File` object the upload code reads. -/
structure JSFile where
  name : String
  mime : String
  size : Nat
deriving DecidableEq, Repr

/-- Result of `handleVideoUpload`: either the alert-and-return branch for an
oversized file, or acceptance (preview shown, `videoFile` set, analyze
button enabled — the file proceeds to analysis). -/
inductive UploadOutcome where
  | rejectedTooLarge : UploadOutcome
  | accepted (f : JSFile) : UploadOutcome
deriving DecidableEq, Repr

/-- Embedding of `handleVideoUpload`: rejects when `file.size > maxSize`,
otherwise accepts the file for analysis.  No other validation happens in
this function. -/
def handleVideoUpload (f : JSFile) : UploadOutcome :=
  if f.size > maxVideoSize then .rejectedTooLarge else .accepted f

/-- Result of the drop handler: the invalid-file alert, or a call into
`handleVideoUpload`. -/
inductive DropOutcome where
  | alertInvalid : DropOutcome
  | handled (o : UploadOutcome) : DropOutcome
deriving DecidableEq, Repr

/-- Embedding of the `uploadArea` drop handler: requires a first file whose
MIME type starts with `video/`, else alerts. -/
def dropHandler (files : List JSFile) : DropOutcome :=
  match files with
  | [] => .alertInvalid
  | f :: _ =>
    if List.isPrefixOf ("video/").data f.mime.data then
      .handled (handleVideoUpload f)
    else .alertInvalid

/-- Embedding of the `videoInput` change handler: any chosen file goes
straight to `handleVideoUpload`, with no media-type inspection. -/
def changeHandler (files : List JSFile) : Option UploadOutcome :=
  match files with
  | [] => none
  | f :: _ => some (handleVideoUpload f)

/-- The recognized container formats named by the spec and the backend
README (the whitelist claim C7 asserts the upload boundary enforces). -/
def recognizedContainers : List String :=
  [("mp4"), ("mov"), ("avi"), ("mkv"), ("webm")]

/-- Lower-cased extension of a file name (text after the last dot). -/
def fileExtension (name : String) : String :=
  match (splitOnChar '.' name.data).getLast? with
  | none => ("")
  | some e => String.mk (e.map Char.toLower)

/-- The file's container format is one of the recognized ones. -/
def recognizedContainer (f : JSFile) : Bool :=
  recognizedContainers.contains (fileExtension f.name)

/-! ### Session state (`handlePromptSubmission` in app.js) -/

/-- One conversation turn as pushed onto `appState.conversationHistory`. -/
structure ConversationTurn where
  role : String
  content : String
deriving DecidableEq, Repr

/-- The success path of `handlePromptSubmission`: after a `response.ok`
reply, the user turn and then the assistant turn are pushed onto the
history. -/
def pushExchange (h : List ConversationTurn) (prompt response : String) :
    List ConversationTurn :=
  h ++ [{ role := ("user"), content := prompt },
        { role := ("assistant"), content := response }]

/-- The failure path of `handlePromptSubmission` (non-ok response or thrown
error): the history is left untouched. -/
def failedExchange (h : List ConversationTurn) : List ConversationTurn := h

/-- Histories reachable from the initial `conversationHistory: []` through
the two paths of `handlePromptSubmission` — the only code that ever writes
the history. -/
inductive ReachableHistory : List ConversationTurn → Prop where
  | start : ReachableHistory []
  | okStep (h : List ConversationTurn) (p r : String) :
      ReachableHistory h → ReachableHistory (pushExchange h p r)
  | errStep (h : List ConversationTurn) :
      ReachableHistory h → ReachableHistory (failedExchange h)

/-- A history that is an ordered sequence of completed exchanges: each a
user turn immediately followed by its assistant turn. -/
inductive CompletedExchanges : List ConversationTurn → Prop where
  | nil : CompletedExchanges []
  | pair (p r : String) (rest : List ConversationTurn) :
      CompletedExchanges rest →
      CompletedExchanges ({ role := ("user"), content := p } ::
        { role := ("assistant"), content := r } :: rest)

/-! ### Spec-modelled backend pipeline -/

/-- One extracted video frame (sequence index and timestamp in seconds). -/
structure Frame where
  idx : Nat
  timestampSeconds : Nat
deriving DecidableEq, Repr

/-- Modelled from the spec: the Frame Extractor of `wildlife_backend.py` is
not under src/; per spec §4.1 and the backend README it decodes one frame
per second of video, rounding down the fractional final window, each frame
carrying its timestamp. -/
def extractFrames (durationSeconds : Nat) : List Frame :=
  (List.range durationSeconds).map (fun i => { idx := i, timestampSeconds := i })

/-- Ceiling division, `⌈n / k⌉` on naturals. -/
def ceilDiv (n k : Nat) : Nat := (n + k - 1) / k

/-- Modelled from the spec: the Frame Sampler of `wildlife_backend.py` is
not under src/; per spec §4.2 it keeps every k-th frame (indices 0, k, 2k,
…), and when that stride-based count exceeds the maximum frame budget it
re-strides to hit the cap with uniform spacing across the full timeline. -/
def sampleIndices (n k cap : Nat) : List Nat :=
  let strided := (List.range n).filter (fun i => i % k == 0)
  if strided.length ≤ cap then strided
  else (List.range cap).map (fun i => i * n / cap)

/-- Modelled from the spec: frame selection applied to the extracted list,
preserving original order and timestamps. -/
def sampleFrames (frames : List Frame) (k cap : Nat) : List Frame :=
  (sampleIndices frames.length k cap).filterMap (fun i => frames[i]?)

/-- Modelled from the spec: `frames_analyzed` reported by the analyze
endpoint is the number of sampled frames actually encoded and sent to the
model (spec §8 end-to-end scenario), not the raw extracted count. -/
def framesAnalyzed (durationSeconds k cap : Nat) : Nat :=
  (sampleFrames (extractFrames durationSeconds) k cap).length

/-- Result assembled from a provider response stream: the concatenated text,
the number of chunks, and the empty-response warning flag. -/
structure StreamResult where
  raw_text : String
  chunkCount : Nat
  emptyWarning : Bool
deriving DecidableEq, Repr

/-- Modelled from the spec: the streaming-collection loop of the backend's
VLM call (`wildlife_backend.py` / `backend.py`, not under src/) appends the
chunks in arrival order into one text; per the repository's debug guide
(src/unnamed/part_003, Pattern 1 and the `analyze_image_with_vlm` log list)
an empty final text only raises a warning. -/
def collectStream (chunks : List String) : StreamResult :=
  let text := chunks.foldl (fun acc c => acc ++ c) ("")
  { raw_text := text, chunkCount := chunks.length, emptyWarning := text == ("") }

/-- Outcome of one orchestration call as seen by the caller. -/
inductive OrchOutcome where
  | ok (r : StreamResult) : OrchOutcome
  | error (kind : String) : OrchOutcome
deriving DecidableEq, Repr

/-- Modelled from the spec: the analyze endpoint's handling of a completed
stream.  Per the repository's debug guide (part_003: after `Streaming
complete! Received 0 chunks` only `WARNING: Response text is empty!` is
logged and Step 7 still returns the JSON response), the assembled text is
returned as a success whatever the chunk count. -/
def orchestrateStream (chunks : List String) : OrchOutcome :=
  .ok (collectStream chunks)

/-- Terminal state of one orchestrator invocation. -/
inductive OrchExit where
  | success (text : String) : OrchExit
  | failure (kind : String) : OrchExit
  | abort : OrchExit
deriving DecidableEq, Repr

/-- Frame-lifecycle events of one request. -/
inductive FrameEvent where
  | create (id : Nat) : FrameEvent
  | providerCall (outcome : OrchExit) : FrameEvent
  | delete (id : Nat) : FrameEvent

/-- Modelled from the spec: the orchestrator of `wildlife_backend.py` is not
under src/; per spec §4.4/§5 (and step 6 of the backend README) a request
creates its ephemeral frames, performs the provider call which terminates
with some outcome (success, error, or caller abort), and then unconditional
cleanup deletes every created frame before the response is returned. -/
def requestTrace (n : Nat) (outcome : OrchExit) : List FrameEvent :=
  ((List.range n).map .create) ++ [.providerCall outcome] ++
    ((List.range n).map .delete)

/-- Effect of one frame-lifecycle event on the set of live ephemeral
artifacts. -/
def frameStep (s : Multiset Nat) (e : FrameEvent) : Multiset Nat :=
  match e with
  | .create i => i ::ₘ s
  | .providerCall _ => s
  | .delete i => s.erase i

/-- The multiset of ephemeral frame artifacts alive after a sequence of
events. -/
def liveAfter (events : List FrameEvent) : Multiset Nat :=
  events.foldl frameStep 0

/-! ## Helper lemmas -/

theorem foldl_frameStep_create (l : List Nat) (s : Multiset Nat) :
    (l.map FrameEvent.create).foldl frameStep s = ↑l + s := by
  induction l generalizing s with
  | nil => simp
  | cons a t ih =>
    simp only [List.map_cons, List.foldl_cons, frameStep]
    rw [ih, ← Multiset.cons_coe, Multiset.cons_add, Multiset.add_cons]

theorem foldl_frameStep_delete (l : List Nat) (s : Multiset Nat) :
    (l.map FrameEvent.delete).foldl frameStep (↑l + s) = s := by
  induction l generalizing s with
  | nil => simp
  | cons a t ih =>
    simp only [List.map_cons, List.foldl_cons, frameStep]
    have h : ((↑(a :: t) : Multiset Nat) + s).erase a = ↑t + s := by
      rw [← Multiset.cons_coe, Multiset.cons_add, Multiset.erase_cons_head]
    rw [h]
    exact ih s

theorem completedExchanges_push {h : List ConversationTurn} (p r : String)
    (hc : CompletedExchanges h) : CompletedExchanges (pushExchange h p r) := by
  induction hc with
  | nil => exact CompletedExchanges.pair p r [] CompletedExchanges.nil
  | pair p' r' rest _ ih =>
    simpa [pushExchange, List.cons_append] using
      CompletedExchanges.pair p' r' _ ih

theorem completedExchanges_roles {h : List ConversationTurn}
    (hc : CompletedExchanges h) :
    ∀ t ∈ h, t.role = ("user") ∨ t.role = ("assistant") := by
  induction hc with
  | nil => intro t ht; simp at ht
  | pair p r rest _ ih =>
    intro t ht
    rcases List.mem_cons.mp ht with h1 | h2
    · left; rw [h1]
    · rcases List.mem_cons.mp h2 with h3 | h4
      · right; rw [h3]
      · exact ih t h4

theorem completedExchanges_even {h : List ConversationTurn}
    (hc : CompletedExchanges h) : h.length % 2 = 0 := by
  induction hc with
  | nil => rfl
  | pair p r rest _ ih => simp only [List.length_cons]; omega

theorem foldl_append_length (chunks : List String) (acc : String) :
    (chunks.foldl (fun a c => a ++ c) acc).length =
      acc.length + (chunks.map String.length).sum := by
  induction chunks generalizing acc with
  | nil => simp
  | cons c t ih =>
    simp only [List.foldl_cons, List.map_cons, List.sum_cons]
    rw [ih, String.length_append]
    omega

theorem string_length_eq_zero (s : String) : s.length = 0 ↔ s = ("") := by
  constructor
  · intro hlen
    cases s with
    | mk data =>
      have hd : data = [] := List.length_eq_zero.mp hlen
      subst hd
      rfl
  · intro hs
    subst hs
    decide

theorem dropWhile_head_not (p : Char → Bool) :
    ∀ {l r : List Char} {c : Char}, l.dropWhile p = c :: r → p c = false := by
  intro l
  induction l with
  | nil => intro r c h; simp [List.dropWhile] at h
  | cons a t ih =>
    intro r c h
    rw [List.dropWhile_cons] at h
    split at h
    · exact ih h
    · next hpa =>
      injection h with h1 _
      subst h1
      simpa using hpa

theorem trimRightJS_cases (c : Char) (cs : List Char) :
    trimRightJS (c :: cs) = [] ∨ trimRightJS (c :: cs) = c :: trimRightJS cs := by
  simp only [trimRightJS]
  split
  · exact Or.inl rfl
  · exact Or.inr rfl

theorem trimRightJS_idem (cs : List Char) :
    trimRightJS (trimRightJS cs) = trimRightJS cs := by
  induction cs with
  | nil => rfl
  | cons c t ih =>
    simp only [trimRightJS]
    split
    · rfl
    · next hcond =>
      simp only [trimRightJS, ih]
      split
      · next hc2 => exact absurd hc2 hcond
      · rfl

theorem trimJS_idem (cs : List Char) : trimJS (trimJS cs) = trimJS cs := by
  unfold trimJS
  cases hz : trimLeftJS cs with
  | nil => rfl
  | cons c0 t =>
    have hws : jsWs c0 = false := dropWhile_head_not jsWs hz
    rcases trimRightJS_cases c0 t with hr | hr
    · rw [hr]; rfl
    · rw [hr]
      have hleft : trimLeftJS (c0 :: trimRightJS t) = c0 :: trimRightJS t := by
        simp [trimLeftJS, List.dropWhile_cons, hws]
      rw [hleft]
      have hidem := trimRightJS_idem (c0 :: t)
      rw [hr] at hidem
      exact hidem

theorem contains_false_not_mem {α : Type} [BEq α] [LawfulBEq α] {l : List α}
    {x : α} (h : l.contains x = false) : x ∉ l := by
  intro hmem
  have htrue : l.contains x = true := by
    rw [List.contains_iff_exists_mem_beq]
    exact ⟨x, hmem, by simp⟩
  rw [htrue] at h
  exact Bool.noConfusion h

theorem parseBlock_invariant (caps : List (List Char)) (acc : List (List Char))
    (hnd : acc.Nodup) (hP : ∀ x ∈ acc, trimJS x = x ∧ x ≠ []) :
    (caps.foldl pushSpecies acc).Nodup ∧
      ∀ x ∈ caps.foldl pushSpecies acc, trimJS x = x ∧ x ≠ [] := by
  induction caps generalizing acc with
  | nil => exact ⟨hnd, hP⟩
  | cons cap rest ih =>
    simp only [List.foldl_cons]
    apply ih
    · simp only [pushSpecies]
      split
      · exact hnd
      · split
        · exact hnd
        · next hne hmem =>
          rw [List.nodup_append]
          refine ⟨hnd, List.nodup_singleton _, ?_⟩
          intro a ha hb
          rw [List.mem_singleton] at hb
          subst hb
          exact contains_false_not_mem (Bool.eq_false_iff.mpr hmem) ha
    · intro x hx
      simp only [pushSpecies] at hx
      split at hx
      · exact hP x hx
      · split at hx
        · exact hP x hx
        · next hne hmem =>
          rw [List.mem_append, List.mem_singleton] at hx
          rcases hx with hx | hx
          · exact hP x hx
          · subst hx
            refine ⟨trimJS_idem cap, ?_⟩
            intro hnil
            rw [hnil] at hne
            simp at hne

theorem parseSpecies_nodup_trimmed (s : String) :
    (parseSpeciesFromAnalysis s).Nodup ∧
      ∀ x ∈ parseSpeciesFromAnalysis s, trimJS x.data = x.data ∧ x.data ≠ [] := by
  unfold parseSpeciesFromAnalysis
  split
  · simp
  · next i hi =>
    have hinv := parseBlock_invariant
      (dashCaptures ((s.data.drop (i + speciesHeaderChars.length)).take
        (findTermIdx (s.data.drop (i + speciesHeaderChars.length)))) .idle)
      [] List.nodup_nil (by intro x hx; simp at hx)
    constructor
    · exact List.Nodup.map (fun a b hab => by injection hab) hinv.1
    · intro x hx
      rw [List.mem_map] at hx
      rcases hx with ⟨cs, hcs, hmk⟩
      have hdata : x.data = cs := by rw [← hmk]
      rw [hdata]
      exact hinv.2 cs hcs

theorem ceilDiv_succ (m k : Nat) (hk : 0 < k) :
    ceilDiv (m + 1) k = ceilDiv m k + (if m % k = 0 then 1 else 0) := by
  unfold ceilDiv
  have h1 : m + 1 + k - 1 = m + k := by omega
  rw [h1, Nat.add_div_right m hk]
  by_cases hm : m % k = 0
  · rw [if_pos hm]
    have hq : k * (m / k) = m := Nat.mul_div_cancel' (Nat.dvd_of_mod_eq_zero hm)
    have h2 : m + k - 1 = k * (m / k) + (k - 1) := by omega
    rw [h2, Nat.mul_add_div hk, Nat.div_eq_of_lt (by omega : k - 1 < k)]
  · rw [if_neg hm]
    have hr : m % k < k := Nat.mod_lt m hk
    have hq : k * (m / k) + m % k = m := Nat.div_add_mod m k
    have h2 : m + k - 1 = k * (m / k) + (m % k + k - 1) := by omega
    rw [h2, Nat.mul_add_div hk]
    rw [show m % k + k - 1 = k * 1 + (m % k - 1) by omega, Nat.mul_add_div hk,
      Nat.div_eq_of_lt (show m % k - 1 < k by omega)]

theorem count_multiples (n k : Nat) (hk : 0 < k) :
    ((List.range n).filter (fun i => i % k == 0)).length = ceilDiv n k := by
  induction n with
  | zero =>
    simp only [List.range_zero, List.filter_nil, List.length_nil, ceilDiv]
    exact (Nat.div_eq_of_lt (by omega)).symm
  | succ m ih =>
    rw [List.range_succ, List.filter_append, List.length_append, ih,
      ceilDiv_succ m k hk]
    simp only [List.filter_cons, List.filter_nil]
    by_cases hm : m % k = 0
    · simp [hm]
    · simp [hm]

theorem ceilDiv_le_self (n k : Nat) (hk : 1 ≤ k) : ceilDiv n k ≤ n := by
  unfold ceilDiv
  cases n with
  | zero => exact Nat.le_of_eq (Nat.div_eq_of_lt (by omega))
  | succ m =>
    have h1 : m + 1 + k - 1 = m + k := by omega
    rw [h1, Nat.add_div_right m hk]
    have h2 : m / k ≤ m := Nat.div_le_self m k
    omega

theorem ceilDiv_pos (n k : Nat) (hn : 0 < n) (hk : 0 < k) : 0 < ceilDiv n k := by
  have h := (Nat.one_le_div_iff hk).mpr (show k ≤ n + k - 1 by omega)
  unfold ceilDiv
  omega

theorem floorIdx_lt (n cap i : Nat) (hcap : 0 < cap) (hin : i < cap) (hn : 0 < n) :
    i * n / cap < n := by
  rw [Nat.div_lt_iff_lt_mul hcap, Nat.mul_comm n cap]
  exact Nat.mul_lt_mul_of_pos_right hin hn

theorem floorIdx_strictMono (n cap i j : Nat) (hcap : 0 < cap) (hij : i < j)
    (hcn : cap ≤ n) : i * n / cap < j * n / cap := by
  have h0 : (i + 1) * n ≤ j * n := Nat.mul_le_mul_right n hij
  have h1 : i * n + cap ≤ j * n := by
    have : i * n + n = (i + 1) * n := by ring
    omega
  have h2 : (i * n + cap) / cap ≤ j * n / cap := Nat.div_le_div_right h1
  rw [Nat.add_div_right _ hcap] at h2
  omega

theorem filterMap_getElem_length {α : Type} (l : List α) :
    ∀ (idx : List Nat), (∀ i ∈ idx, i < l.length) →
      (idx.filterMap (fun i => l[i]?)).length = idx.length := by
  intro idx
  induction idx with
  | nil => intro _; rfl
  | cons i t ih =>
    intro hb
    have hi : i < l.length := hb i (List.mem_cons_self i t)
    rw [List.filterMap_cons, List.getElem?_eq_getElem hi]
    simp only [List.length_cons]
    rw [ih (fun j hj => hb j (List.mem_cons_of_mem i hj))]

theorem filterMap_getElem_sublist_from {α : Type} (l : List α) :
    ∀ (idx : List Nat) (b : Nat), idx.Pairwise (· < ·) →
      (∀ i ∈ idx, b ≤ i ∧ i < l.length) →
      List.Sublist (idx.filterMap (fun i => l[i]?)) (l.drop b) := by
  intro idx
  induction idx with
  | nil => intro b _ _; exact List.nil_sublist _
  | cons i t ih =>
    intro b hp hb
    have hi : i < l.length := (hb i (List.mem_cons_self i t)).2
    have hbi : b ≤ i := (hb i (List.mem_cons_self i t)).1
    rw [List.filterMap_cons, List.getElem?_eq_getElem hi]
    have hrest : List.Sublist (t.filterMap (fun j => l[j]?)) (l.drop (i + 1)) := by
      apply ih (i + 1) (List.Pairwise.sublist (List.sublist_cons_self i t) hp)
      intro j hj
      exact ⟨(List.rel_of_pairwise_cons hp hj), (hb j (List.mem_cons_of_mem i hj)).2⟩
    have hstep : List.Sublist (l[i] :: t.filterMap (fun j => l[j]?)) (l.drop i) := by
      rw [List.drop_eq_getElem_cons hi]
      exact List.Sublist.cons₂ _ hrest
    have hdrops : List.Sublist (l.drop i) (l.drop b) := by
      have : l.drop i = (l.drop b).drop (i - b) := by
        rw [List.drop_drop]
        congr 1
        omega
      rw [this]
      exact List.drop_sublist _ _
    exact hstep.trans hdrops

theorem sampleIndices_mem_lt (n k cap : Nat) (hcap : 0 < cap) :
    ∀ i ∈ sampleIndices n k cap, i < n := by
  intro i hi
  simp only [sampleIndices] at hi
  split at hi
  · have := List.mem_filter.mp hi
    exact List.mem_range.mp this.1
  · next hgt =>
    rcases List.mem_map.mp hi with ⟨j, hj, hji⟩
    have hn : 0 < n := by
      by_contra hn0
      have hn0 : n = 0 := by omega
      subst hn0
      simp at hgt
    rw [← hji]
    exact floorIdx_lt n cap j hcap (List.mem_range.mp hj) hn

theorem sampleIndices_pairwise (n k cap : Nat) (hcap : 0 < cap) :
    (sampleIndices n k cap).Pairwise (· < ·) := by
  simp only [sampleIndices]
  split
  · exact List.Pairwise.filter _ (List.pairwise_lt_range n)
  · next hgt =>
    rw [List.pairwise_map]
    have hfl : ((List.range n).filter (fun i => i % k == 0)).length ≤ n := by
      have := List.length_filter_le (fun i => i % k == 0) (List.range n)
      simpa using this
    have hcn : cap ≤ n := by omega
    exact List.Pairwise.imp (fun hab => floorIdx_strictMono n cap _ _ hcap hab hcn)
      (List.pairwise_lt_range cap)

theorem sampleIndices_length (n k cap : Nat) (hk : 0 < k) :
    (sampleIndices n k cap).length = min cap (ceilDiv n k) := by
  simp only [sampleIndices]
  split
  · next hle =>
    rw [count_multiples n k hk] at hle ⊢
    omega
  · next hgt =>
    rw [count_multiples n k hk] at hgt
    simp only [List.length_map, List.length_range]
    omega

/-! ## Claim theorems -/

/-- C1 counterexample: the claim's section contract says the species block
ends at a line beginning `DETAILED ANALYSIS:`, but the code's lookahead
matches that substring anywhere — on this input it cuts the first candidate
line in half, so the code returns `["Red"]` while the contract as stated
yields the two full candidates, and `"Deer"` is dropped entirely. -/
theorem parser_contract_cex :
    parseSpeciesFromAnalysis ("SPECIES DETECTED:\n- Red DETAILED ANALYSIS: x\n- Deer") =
      [("Red")] ∧
    specSectionParse ("SPECIES DETECTED:\n- Red DETAILED ANALYSIS: x\n- Deer") =
      [("Red DETAILED ANALYSIS: x"), ("Deer")] ∧
    parseSpeciesFromAnalysis ("SPECIES DETECTED:\n- Red DETAILED ANALYSIS: x\n- Deer") ≠
      specSectionParse ("SPECIES DETECTED:\n- Red DETAILED ANALYSIS: x\n- Deer") := by
  decide

/-- C1 (amended): the Result Parser extracts species from the block between
the first case-insensitive occurrence of the substring `SPECIES DETECTED:`
and the earliest following blank line or occurrence of the substring
`DETAILED ANALYSIS:` (possibly mid-line); candidates are the captured
groups of the dash-line regex, trimmed, with empty candidates dropped,
case-sensitive exact duplicates suppressed and first-appearance order
preserved.  In particular the round-trip example returns exactly
`["Fox", "Deer"]`; any text with no header occurrence returns `[]`; and for
every input the result is duplicate-free and every returned species is a
non-empty, fully trimmed string. -/
theorem parser_sectionContract_amended :
    parseSpeciesFromAnalysis
        ("SPECIES DETECTED:\n- Fox\n- Deer\n\nDETAILED ANALYSIS:...") =
      [("Fox"), ("Deer")] ∧
    ∀ s : String,
      (containsSpeciesHeader s = false → parseSpeciesFromAnalysis s = []) ∧
      (parseSpeciesFromAnalysis s).Nodup ∧
      ∀ x ∈ parseSpeciesFromAnalysis s, trimJS x.data = x.data ∧ x.data ≠ [] := by
  refine ⟨by decide, ?_⟩
  intro s
  refine ⟨?_, (parseSpecies_nodup_trimmed s).1, (parseSpecies_nodup_trimmed s).2⟩
  intro h
  unfold containsSpeciesHeader at h
  unfold parseSpeciesFromAnalysis
  cases hf : findIdxCI speciesHeaderChars s.data with
  | none => rfl
  | some i =>
    rw [hf] at h
    simp at h

theorem parser_sectionContract_amended_witness :
    containsSpeciesHeader ("nothing here") = false ∧
    parseSpeciesFromAnalysis ("nothing here") = [] :=
  ⟨by decide, ((parser_sectionContract_amended.2 ("nothing here")).1) (by decide)⟩

/-- C3: a 40-second video at 1 fps yields 40 raw frames; with stride 5 and
cap 10 the sampler selects the frames at original indices 0, 5, …, 35
(8 frames); `frames_analyzed` equals the number of sampled frames sent to
the model (8), not the number extracted (40), and `displayVLMResults`
renders that count into the sightings card. -/
theorem endToEnd_40s_stride5_cap10 :
    (extractFrames 40).length = 40 ∧
    (sampleFrames (extractFrames 40) 5 10).map Frame.idx =
      [0, 5, 10, 15, 20, 25, 30, 35] ∧
    (sampleFrames (extractFrames 40) 5 10).length = 8 ∧
    framesAnalyzed 40 5 10 = 8 ∧
    (displayVLMResults
      { analysis := ("SPECIES DETECTED:\n- Fox\n\nDETAILED ANALYSIS: summary")
        video_metadata := { fps := 30, duration := 40, width := 1920, height := 1080 }
        frames_analyzed := framesAnalyzed 40 5 10 }).sightingsCount = ("8") := by
  decide

/-- C4 counterexample: a provider stream of zero chunks does not surface an
`EmptyResponseError` — the documented pipeline completes the collection
loop, logs the empty-response warning, and returns a success result whose
`raw_text` is empty, contradicting the claim. -/
theorem emptyStream_success_cex :
    orchestrateStream [] =
      OrchOutcome.ok { raw_text := (""), chunkCount := 0, emptyWarning := true } := by
  decide

/-- C4 (amended): an orchestration call always completes as a success whose
`raw_text` is the concatenation of the stream's chunks in arrival order
(its length is the total chunk length), and the empty-response warning is
raised exactly when every chunk is empty; in particular a zero-chunk stream
yields a success with empty `raw_text` plus the warning, not an
`EmptyResponseError`. -/
theorem emptyStream_amended (chunks : List String) :
    orchestrateStream chunks = OrchOutcome.ok (collectStream chunks) ∧
    (collectStream chunks).raw_text.length = (chunks.map String.length).sum ∧
    ((collectStream chunks).emptyWarning = true ↔ ∀ c ∈ chunks, c = ("")) := by
  have hlen : (collectStream chunks).raw_text.length =
      (chunks.map String.length).sum := by
    simpa using foldl_append_length chunks ("")
  refine ⟨rfl, hlen, ?_⟩
  have hwarn : (collectStream chunks).emptyWarning =
      ((collectStream chunks).raw_text == ("")) := rfl
  rw [hwarn, beq_iff_eq, ← string_length_eq_zero, hlen]
  rw [List.sum_eq_zero_iff]
  constructor
  · intro hz c hc
    have : c.length = 0 := hz c.length (List.mem_map_of_mem String.length hc)
    exact (string_length_eq_zero c).mp this
  · intro hall n hn
    rcases List.mem_map.mp hn with ⟨c, hc, hcl⟩
    rw [← hcl, (string_length_eq_zero c).mpr (hall c hc)]

theorem emptyStream_amended_witness :
    (collectStream [("ab"), ("")]).raw_text.length =
      ([("ab"), ("")].map String.length).sum :=
  (emptyStream_amended [("ab"), ("")]).2.1

/-- C5: for every request (any number of created frames) and every exit of
the provider call — success, any error kind, or caller abort — the
unconditional cleanup deletes all ephemeral frame artifacts, so none
survives the request boundary. -/
theorem requestTrace_cleanup (n : Nat) (outcome : OrchExit) :
    liveAfter (requestTrace n outcome) = 0 := by
  unfold liveAfter requestTrace
  rw [List.foldl_append, List.foldl_append, foldl_frameStep_create]
  simp only [List.foldl_cons, List.foldl_nil, frameStep]
  exact foldl_frameStep_delete (List.range n) 0

/-- C6: rendering an analysis never loses the raw model text — the summary
pane receives the unabridged `analysis` string whatever the parse outcome,
the species grid shows exactly the parsed list, and when the parser (a
total function over all input strings) finds no species section the grid
degrades to the placeholder while the raw text is still rendered. -/
theorem parser_never_fails_raw_preserved (d : AnalysisResponse) :
    (displayVLMResults d).aiSummaryContent = d.analysis ∧
    (displayVLMResults d).speciesCards = parseSpeciesFromAnalysis d.analysis ∧
    (parseSpeciesFromAnalysis d.analysis = [] →
      (displayVLMResults d).speciesPlaceholder = true) := by
  refine ⟨rfl, rfl, ?_⟩
  intro h
  simp [displayVLMResults, h]

theorem parser_never_fails_raw_preserved_witness :
    parseSpeciesFromAnalysis ("No species section at all.") = [] ∧
    (displayVLMResults
      { analysis := ("No species section at all.")
        video_metadata := { fps := 30, duration := 12, width := 640, height := 480 }
        frames_analyzed := 3 }).speciesPlaceholder = true :=
  ⟨by decide, (parser_never_fails_raw_preserved _).2.2 (by decide)⟩

/-- C7 counterexample: the upload boundary does not enforce the container
whitelist — an `.ogv` file (not among mp4/mov/avi/mkv/webm) is accepted for
analysis both through the file-input path and through drag-and-drop (its
MIME type starts with `video/`), and a plain text file is accepted through
the file-input path. -/
theorem uploadBoundary_whitelist_cex :
    changeHandler [{ name := ("clip.ogv"), mime := ("video/ogg"), size := 1024 }] =
      some (UploadOutcome.accepted
        { name := ("clip.ogv"), mime := ("video/ogg"), size := 1024 }) ∧
    dropHandler [{ name := ("clip.ogv"), mime := ("video/ogg"), size := 1024 }] =
      DropOutcome.handled (UploadOutcome.accepted
        { name := ("clip.ogv"), mime := ("video/ogg"), size := 1024 }) ∧
    recognizedContainer { name := ("clip.ogv"), mime := ("video/ogg"), size := 1024 } =
      false ∧
    changeHandler [{ name := ("notes.txt"), mime := ("text/plain"), size := 2048 }] =
      some (UploadOutcome.accepted
        { name := ("notes.txt"), mime := ("text/plain"), size := 2048 }) := by
  decide

/-- C7 (amended): the upload boundary enforces only the size ceiling before
the pipeline runs — every file strictly larger than 500 MB is rejected on
both paths without reaching analysis, every file within the ceiling is
accepted by `handleVideoUpload`, and the drag-and-drop path additionally
requires a MIME type starting with `video/`; no container-format whitelist
is enforced. -/
theorem uploadBoundary_size_gate (f : JSFile) :
    (f.size > maxVideoSize →
      handleVideoUpload f = UploadOutcome.rejectedTooLarge ∧
      dropHandler [f] ≠ DropOutcome.handled (UploadOutcome.accepted f) ∧
      changeHandler [f] ≠ some (UploadOutcome.accepted f)) ∧
    (f.size ≤ maxVideoSize → handleVideoUpload f = UploadOutcome.accepted f) ∧
    (List.isPrefixOf ("video/").data f.mime.data = false →
      dropHandler [f] = DropOutcome.alertInvalid) := by
  refine ⟨?_, ?_, ?_⟩
  · intro hgt
    have h1 : handleVideoUpload f = UploadOutcome.rejectedTooLarge := by
      simp [handleVideoUpload, hgt]
    refine ⟨h1, ?_, ?_⟩
    · simp only [dropHandler, h1]
      split <;> simp
    · simp [changeHandler, h1]
  · intro hle
    simp [handleVideoUpload]
    omega
  · intro hm
    simp [dropHandler, hm]

theorem uploadBoundary_size_gate_witness :
    handleVideoUpload { name := ("big.mp4"), mime := ("video/mp4"), size := 524288001 } =
      UploadOutcome.rejectedTooLarge :=
  ((uploadBoundary_size_gate _).1 (by decide)).1

/-- C8: the conversation history reachable through `handlePromptSubmission`
is always an ordered sequence of completed exchanges — each a turn of role
`user` (the submitted prompt) immediately followed by a turn of role
`assistant` (the reply) — so every turn's role is `user` or `assistant`,
the length is even, the user turn of every completed exchange precedes its
assistant turn, and each step only appends (a success appends the pair at
the end, a failure leaves the history unchanged). -/
theorem conversationHistory_invariant :
    (∀ h, ReachableHistory h → CompletedExchanges h ∧
      (∀ t ∈ h, t.role = ("user") ∨ t.role = ("assistant")) ∧
      h.length % 2 = 0) ∧
    (∀ h p r, pushExchange h p r =
      h ++ [{ role := ("user"), content := p }, { role := ("assistant"), content := r }] ∧
      failedExchange h = h) := by
  constructor
  · intro h hr
    have hc : CompletedExchanges h := by
      induction hr with
      | start => exact CompletedExchanges.nil
      | okStep h p r _ ih => exact completedExchanges_push p r ih
      | errStep h _ ih => exact ih
    exact ⟨hc, completedExchanges_roles hc, completedExchanges_even hc⟩
  · intro h p r
    exact ⟨rfl, rfl⟩

theorem conversationHistory_invariant_witness :
    CompletedExchanges (pushExchange [] ("What animals appear?") ("Deer and foxes.")) ∧
    (pushExchange [] ("What animals appear?") ("Deer and foxes.")).length % 2 = 0 :=
  ⟨(conversationHistory_invariant.1 _
      (ReachableHistory.okStep [] ("What animals appear?") ("Deer and foxes.")
        ReachableHistory.start)).1,
   (conversationHistory_invariant.1 _
      (ReachableHistory.okStep [] ("What animals appear?") ("Deer and foxes.")
        ReachableHistory.start)).2.2⟩

/-- C10: the size check is strict, so a file of exactly 500 MB
(524,288,000 bytes) is accepted; a file chosen through the file-input
dialog reaches `handleVideoUpload` with no media-type check at all (any
MIME type within the ceiling is accepted on that path), while the
drag-and-drop path rejects files whose MIME type does not start with
`video/`. -/
theorem uploadBoundary_exact500MB_paths :
    maxVideoSize = 524288000 ∧
    handleVideoUpload
        { name := ("wildlife.mp4"), mime := ("video/mp4"), size := 524288000 } =
      UploadOutcome.accepted
        { name := ("wildlife.mp4"), mime := ("video/mp4"), size := 524288000 } ∧
    (∀ f : JSFile, f.size ≤ 524288000 →
      changeHandler [f] = some (UploadOutcome.accepted f)) ∧
    (∀ f : JSFile, List.isPrefixOf ("video/").data f.mime.data = false →
      dropHandler [f] = DropOutcome.alertInvalid) := by
  refine ⟨by decide, by decide, ?_, ?_⟩
  · intro f hle
    simp [changeHandler, handleVideoUpload, maxVideoSize]
    omega
  · intro f hm
    simp [dropHandler, hm]

theorem uploadBoundary_exact500MB_paths_witness :
    changeHandler [{ name := ("a.bin"), mime := ("application/x"), size := 7 }] =
      some (UploadOutcome.accepted
        { name := ("a.bin"), mime := ("application/x"), size := 7 }) :=
  uploadBoundary_exact500MB_paths.2.2.1 _ (by decide)

/-- C2: for every stride k ≥ 1 and frame budget cap ≥ 1, the sampler output
length is `min(cap, ⌈n/k⌉)` for a non-empty input of n frames and 0 for an
empty one; the sampled timestamps form a subsequence of the input
timestamps and are strictly increasing whenever the input timestamps are;
and the output is non-empty whenever the input is. -/
theorem sampleFrames_spec (frames : List Frame) (k cap : Nat)
    (hk : 1 ≤ k) (hcap : 1 ≤ cap) :
    (frames.length = 0 → sampleFrames frames k cap = []) ∧
    (0 < frames.length →
      (sampleFrames frames k cap).length = min cap (ceilDiv frames.length k)) ∧
    List.Sublist ((sampleFrames frames k cap).map Frame.timestampSeconds)
      (frames.map Frame.timestampSeconds) ∧
    ((frames.map Frame.timestampSeconds).Pairwise (· < ·) →
      ((sampleFrames frames k cap).map Frame.timestampSeconds).Pairwise (· < ·)) ∧
    (frames ≠ [] → sampleFrames frames k cap ≠ []) := by
  have hmem := sampleIndices_mem_lt frames.length k cap hcap
  have hsub : List.Sublist (sampleFrames frames k cap) frames := by
    have h := filterMap_getElem_sublist_from frames
      (sampleIndices frames.length k cap) 0
      (sampleIndices_pairwise frames.length k cap hcap)
      (fun i hi => ⟨Nat.zero_le i, hmem i hi⟩)
    simpa [sampleFrames] using h
  have hlen : 0 < frames.length →
      (sampleFrames frames k cap).length = min cap (ceilDiv frames.length k) := by
    intro _
    unfold sampleFrames
    rw [filterMap_getElem_length frames _ hmem,
      sampleIndices_length frames.length k cap hk]
  refine ⟨?_, hlen, hsub.map Frame.timestampSeconds, ?_, ?_⟩
  · intro h0
    have he : frames = [] := List.length_eq_zero.mp h0
    subst he
    simp [sampleFrames, sampleIndices]
  · intro hpw
    exact List.Pairwise.sublist (hsub.map Frame.timestampSeconds) hpw
  · intro hne
    have h0 : 0 < frames.length := List.length_pos.mpr hne
    have h1 := hlen h0
    have h2 : 0 < ceilDiv frames.length k := ceilDiv_pos frames.length k h0 hk
    intro hnil
    rw [hnil] at h1
    simp at h1
    omega

theorem sampleFrames_spec_witness :
    (sampleFrames (extractFrames 7) 2 3).length =
      min 3 (ceilDiv (extractFrames 7).length 2) :=
  (sampleFrames_spec (extractFrames 7) 2 3 (by decide) (by decide)).2.1 (by decide)

theorem startsWithCI_length : ∀ (pat xs : List Char),
    startsWithCI pat xs = true → pat.length ≤ xs.length := by
  intro pat
  induction pat with
  | nil => intro xs _; simp
  | cons p ps ih =>
    intro xs h
    cases xs with
    | nil => simp [startsWithCI] at h
    | cons c cs =>
      simp only [startsWithCI, Bool.and_eq_true] at h
      simp only [List.length_cons]
      exact Nat.succ_le_succ (ih cs h.2)

theorem startsWithCI_append_true : ∀ (pat xs ys : List Char),
    startsWithCI pat xs = true → startsWithCI pat (xs ++ ys) = true := by
  intro pat
  induction pat with
  | nil => intro xs ys _; rfl
  | cons p ps ih =>
    intro xs ys h
    cases xs with
    | nil => simp [startsWithCI] at h
    | cons c cs =>
      simp only [List.cons_append, startsWithCI, Bool.and_eq_true] at h ⊢
      exact ⟨h.1, ih cs ys h.2⟩

theorem startsWithCI_append_nl : ∀ (pat : List Char),
    (∀ c ∈ pat, ciEq c '\n' = false) →
    ∀ (xs r : List Char),
      startsWithCI pat (xs ++ '\n' :: r) = startsWithCI pat xs := by
  intro pat hnl
  induction pat with
  | nil => intro xs r; rfl
  | cons p ps ih =>
    intro xs r
    cases xs with
    | nil =>
      simp only [List.nil_append]
      have hp : ciEq p '\n' = false := hnl p (List.mem_cons_self p ps)
      simp [startsWithCI, hp]
    | cons c cs =>
      simp only [List.cons_append, startsWithCI, List.append_eq]
      rw [ih (fun c hc => hnl c (List.mem_cons_of_mem p hc)) cs r]

theorem speciesHeader_no_newline :
    ∀ c ∈ speciesHeaderChars, ciEq c '\n' = false := by decide

theorem detailedHeader_no_newline :
    ∀ c ∈ detailedHeaderChars, ciEq c '\n' = false := by decide

theorem findIdxCI_append_nl (pat : List Char)
    (hnl : ∀ c ∈ pat, ciEq c '\n' = false) :
    ∀ (s : List Char) (i : Nat) (r : List Char),
      findIdxCI pat s = some i →
      findIdxCI pat (s ++ '\n' :: r) = some i := by
  intro s
  induction s with
  | nil =>
    intro i r h
    simp only [findIdxCI] at h
    split at h
    · next hsw =>
      cases pat with
      | nil =>
        injection h with h0
        subst h0
        rfl
      | cons p ps => simp [startsWithCI] at hsw
    · exact absurd h (by simp)
  | cons c cs ih =>
    intro i r h
    rw [List.cons_append]
    simp only [findIdxCI] at h ⊢
    by_cases hsw : startsWithCI pat (c :: cs) = true
    · rw [if_pos hsw] at h
      have hsw2 : startsWithCI pat (c :: (cs ++ '\n' :: r)) = true := by
        have h2 := startsWithCI_append_true pat (c :: cs) ('\n' :: r) hsw
        simpa [List.cons_append] using h2
      rw [if_pos hsw2]
      exact h
    · rw [if_neg hsw] at h
      have heq := startsWithCI_append_nl pat hnl (c :: cs) r
      rw [List.cons_append] at heq
      have hsw2 : ¬ startsWithCI pat (c :: (cs ++ '\n' :: r)) = true := by
        rw [heq]
        exact hsw
      rw [if_neg hsw2]
      rcases Option.map_eq_some'.mp h with ⟨j, hj, hji⟩
      rw [ih j r hj]
      simp [hji]

theorem findIdxCI_drop (pat : List Char) :
    ∀ (s : List Char) (i : Nat),
      findIdxCI pat s = some i → startsWithCI pat (s.drop i) = true := by
  intro s
  induction s with
  | nil =>
    intro i h
    simp only [findIdxCI] at h
    split at h
    · next hsw =>
      injection h with h0
      subst h0
      simpa using hsw
    · exact absurd h (by simp)
  | cons c cs ih =>
    intro i h
    simp only [findIdxCI] at h
    split at h
    · next hsw =>
      injection h with h0
      subst h0
      simpa using hsw
    · rcases Option.map_eq_some'.mp h with ⟨j, hj, hji⟩
      subst hji
      simp only [List.drop_succ_cons]
      exact ih j hj

theorem findIdxCI_le (pat : List Char) :
    ∀ (s : List Char) (i : Nat), findIdxCI pat s = some i → i ≤ s.length := by
  intro s
  induction s with
  | nil =>
    intro i h
    simp only [findIdxCI] at h
    split at h
    · injection h with h0
      omega
    · exact absurd h (by simp)
  | cons c cs ih =>
    intro i h
    simp only [findIdxCI] at h
    split at h
    · injection h with h0
      omega
    · rcases Option.map_eq_some'.mp h with ⟨j, hj, hji⟩
      have hle := ih j hj
      simp only [List.length_cons]
      omega

theorem findIdxCI_bound (pat s : List Char) (i : Nat)
    (h : findIdxCI pat s = some i) : i + pat.length ≤ s.length := by
  have h1 := findIdxCI_drop pat s i h
  have h2 := startsWithCI_length pat (s.drop i) h1
  rw [List.length_drop] at h2
  have h3 := findIdxCI_le pat s i h
  omega

theorem isPrefixOf_nn_append (v v' : List Char) : ∀ (xs : List Char),
    List.isPrefixOf ['\n', '\n'] (xs ++ '\n' :: '\n' :: v) =
      List.isPrefixOf ['\n', '\n'] (xs ++ '\n' :: '\n' :: v') := by
  intro xs
  match xs with
  | [] => simp [List.isPrefixOf]
  | [x] => simp [List.isPrefixOf]
  | x :: y :: t => simp [List.isPrefixOf]

theorem termAt_append (v v' : List Char) (xs : List Char) :
    termAt (xs ++ '\n' :: '\n' :: v) = termAt (xs ++ '\n' :: '\n' :: v') := by
  unfold termAt
  rw [isPrefixOf_nn_append v v' xs]
  rw [startsWithCI_append_nl detailedHeaderChars detailedHeader_no_newline xs
    ('\n' :: v)]
  rw [startsWithCI_append_nl detailedHeaderChars detailedHeader_no_newline xs
    ('\n' :: v')]

theorem findTermIdx_append (v v' : List Char) : ∀ (u : List Char),
    findTermIdx (u ++ '\n' :: '\n' :: v) =
      findTermIdx (u ++ '\n' :: '\n' :: v') := by
  intro u
  induction u with
  | nil =>
    simp only [List.nil_append, findTermIdx]
    have ht : termAt ('\n' :: '\n' :: v) = true := by
      simp [termAt, List.isPrefixOf]
    have ht2 : termAt ('\n' :: '\n' :: v') = true := by
      simp [termAt, List.isPrefixOf]
    rw [if_pos ht, if_pos ht2]
  | cons c u' ih =>
    simp only [List.cons_append, findTermIdx, List.append_eq]
    have heq := termAt_append v v' (c :: u')
    simp only [List.cons_append] at heq
    rw [heq]
    split
    · rfl
    · rw [ih]

theorem findTermIdx_le_append (v : List Char) : ∀ (u : List Char),
    findTermIdx (u ++ '\n' :: '\n' :: v) ≤ u.length := by
  intro u
  induction u with
  | nil =>
    simp only [List.nil_append, findTermIdx]
    have ht : termAt ('\n' :: '\n' :: v) = true := by
      simp [termAt, List.isPrefixOf]
    rw [if_pos ht]
    simp
  | cons c u' ih =>
    simp only [List.cons_append, findTermIdx, List.length_cons, List.append_eq]
    split
    · omega
    · omega

theorem parseSpecies_eq_of_find (s : String) (i : Nat)
    (h : findIdxCI speciesHeaderChars s.data = some i) :
    parseSpeciesFromAnalysis s =
      (parseBlock ((s.data.drop (i + speciesHeaderChars.length)).take
        (findTermIdx (s.data.drop (i + speciesHeaderChars.length))))).map
        (fun cs => String.mk cs) := by
  unfold parseSpeciesFromAnalysis
  rw [h]

theorem isPrefixOf_nil_pat (l : List Char) :
    List.isPrefixOf ([] : List Char) l = true := by
  cases l <;> rfl

theorem startsWithCI_append_of_le : ∀ (pat ys : List Char),
    pat.length ≤ ys.length → ∀ (x : List Char),
    startsWithCI pat (ys ++ x) = startsWithCI pat ys := by
  intro pat
  induction pat with
  | nil => intro ys _ x; rfl
  | cons p ps ih =>
    intro ys hlen x
    cases ys with
    | nil => simp at hlen
    | cons c cs =>
      simp only [List.cons_append, startsWithCI, List.append_eq]
      rw [ih cs (by simp only [List.length_cons] at hlen; omega) x]

theorem isPrefixOf_append_of_le : ∀ (pat ys : List Char),
    pat.length ≤ ys.length → ∀ (x : List Char),
    List.isPrefixOf pat (ys ++ x) = List.isPrefixOf pat ys := by
  intro pat
  induction pat with
  | nil => intro ys _ x; rw [isPrefixOf_nil_pat, isPrefixOf_nil_pat]
  | cons p ps ih =>
    intro ys hlen x
    cases ys with
    | nil => simp at hlen
    | cons c cs =>
      simp only [List.cons_append, List.isPrefixOf, List.append_eq]
      rw [ih cs (by simp only [List.length_cons] at hlen; omega) x]

theorem isPrefixOf_append_ext : ∀ (pat ys x : List Char),
    List.isPrefixOf pat ys = true → List.isPrefixOf pat (ys ++ x) = true := by
  intro pat
  induction pat with
  | nil => intro ys x _; exact isPrefixOf_nil_pat _
  | cons p ps ih =>
    intro ys x h
    cases ys with
    | nil => simp [List.isPrefixOf] at h
    | cons c cs =>
      simp only [List.cons_append, List.isPrefixOf, Bool.and_eq_true] at h ⊢
      exact ⟨h.1, ih cs x h.2⟩

theorem termAt_append_ext (ys x : List Char) (h : termAt ys = true) :
    termAt (ys ++ x) = true := by
  unfold termAt at h ⊢
  rw [Bool.or_eq_true] at h ⊢
  rcases h with h | h
  · exact Or.inl (isPrefixOf_append_ext _ ys x h)
  · exact Or.inr (startsWithCI_append_true _ ys x h)

theorem startsWithCI_chars : ∀ (ys : List Char) (pat x : List Char),
    ys.length ≤ pat.length → startsWithCI pat (ys ++ x) = true →
    ∀ c ∈ ys, ∃ d ∈ pat, ciEq d c = true := by
  intro ys
  induction ys with
  | nil => intro pat x _ _ c hc; simp at hc
  | cons y t ih =>
    intro pat x hlen hsw c hc
    cases pat with
    | nil => simp at hlen
    | cons p ps =>
      simp only [List.cons_append, startsWithCI, Bool.and_eq_true] at hsw
      rcases List.mem_cons.mp hc with hc | hc
      · subst hc
        exact ⟨p, List.mem_cons_self p ps, hsw.1⟩
      · rcases ih ps x (by simp only [List.length_cons] at hlen; omega)
          hsw.2 c hc with ⟨d, hd, hci⟩
        exact ⟨d, List.mem_cons_of_mem p hd, hci⟩

theorem findTermIdx_of_no_newline_short : ∀ (ys : List Char),
    '\n' ∉ ys → ys.length < detailedHeaderChars.length →
    findTermIdx ys = ys.length := by
  intro ys
  induction ys with
  | nil => intro _ _; rfl
  | cons y t ih =>
    intro hnl hlen
    have hy : y ≠ '\n' := fun h => hnl (h ▸ List.mem_cons_self y t)
    have hterm : termAt (y :: t) = false := by
      unfold termAt
      rw [Bool.or_eq_false_iff]
      constructor
      · have hbne : ('\n' == y) = false := by
          rw [beq_eq_false_iff_ne]
          exact fun h => hy h.symm
        simp [List.isPrefixOf, hbne]
      · by_contra hsw
        rw [Bool.not_eq_false] at hsw
        have hl := startsWithCI_length detailedHeaderChars (y :: t) hsw
        simp only [List.length_cons] at hl hlen
        omega
    simp only [findTermIdx, List.length_cons]
    rw [if_neg (by simp [hterm])]
    rw [ih (fun h => hnl (List.mem_cons_of_mem y h))
      (by simp only [List.length_cons] at hlen; omega)]

theorem termAt_exhaustion (ys x : List Char)
    (ht : termAt (ys ++ x) = true) (hf : termAt ys = false) :
    findTermIdx ys = ys.length := by
  have hf' := hf
  unfold termAt at hf'
  rw [Bool.or_eq_false_iff] at hf'
  unfold termAt at ht
  rw [Bool.or_eq_true] at ht
  rcases ht with hnn | hdet
  · have hlen : ys.length < 2 := by
      by_contra hge
      push_neg at hge
      rw [isPrefixOf_append_of_le ['\n', '\n'] ys (by simpa using hge) x] at hnn
      rw [hf'.1] at hnn
      exact Bool.noConfusion hnn
    cases ys with
    | nil => rfl
    | cons y t =>
      cases t with
      | nil =>
        simp only [findTermIdx]
        rw [if_neg (by simp [hf])]
        rfl
      | cons z t' =>
        simp only [List.length_cons] at hlen
        omega
  · by_cases hge : detailedHeaderChars.length ≤ ys.length
    · rw [startsWithCI_append_of_le detailedHeaderChars ys hge x] at hdet
      rw [hf'.2] at hdet
      exact Bool.noConfusion hdet
    · push_neg at hge
      have hnonl : '\n' ∉ ys := by
        intro hmem
        rcases startsWithCI_chars ys detailedHeaderChars x (le_of_lt hge)
          hdet '\n' hmem with ⟨d, hd, hci⟩
        rw [detailedHeader_no_newline d hd] at hci
        exact Bool.noConfusion hci
      exact findTermIdx_of_no_newline_short ys hnonl hge

theorem findIdxCI_append_any (pat : List Char) :
    ∀ (s : List Char) (i : Nat) (x : List Char),
      findIdxCI pat s = some i → findIdxCI pat (s ++ x) = some i := by
  intro s
  induction s with
  | nil =>
    intro i x h
    simp only [findIdxCI] at h
    split at h
    · next hsw =>
      cases pat with
      | nil =>
        injection h with h0
        subst h0
        cases x with
        | nil => rfl
        | cons c cs => simp [findIdxCI, startsWithCI]
      | cons p ps => simp [startsWithCI] at hsw
    · exact absurd h (by simp)
  | cons c cs ih =>
    intro i x h
    rw [List.cons_append]
    simp only [findIdxCI] at h ⊢
    by_cases hsw : startsWithCI pat (c :: cs) = true
    · rw [if_pos hsw] at h
      have hsw2 : startsWithCI pat (c :: (cs ++ x)) = true := by
        have h2 := startsWithCI_append_true pat (c :: cs) x hsw
        simpa [List.cons_append] using h2
      rw [if_pos hsw2]
      exact h
    · rw [if_neg hsw] at h
      rcases Option.map_eq_some'.mp h with ⟨j, hj, hji⟩
      have hb := findIdxCI_bound pat cs j hj
      have hlen : pat.length ≤ (c :: cs).length := by
        simp only [List.length_cons]
        omega
      have heq := startsWithCI_append_of_le pat (c :: cs) hlen x
      rw [List.cons_append] at heq
      rw [if_neg (by rw [heq]; exact hsw)]
      rw [ih j x hj]
      simp [hji]

theorem findTermIdx_append_closed : ∀ (u x : List Char),
    findTermIdx u < u.length → findTermIdx (u ++ x) = findTermIdx u := by
  intro u
  induction u with
  | nil => intro x h; simp [findTermIdx] at h
  | cons c u' ih =>
    intro x h
    by_cases hc : termAt (c :: u') = true
    · have hcx : termAt (c :: (u' ++ x)) = true := by
        have h2 := termAt_append_ext (c :: u') x hc
        simpa [List.cons_append] using h2
      simp only [List.cons_append, findTermIdx, List.append_eq]
      rw [if_pos hcx, if_pos hc]
    · have hf : termAt (c :: u') = false := by
        rw [← Bool.not_eq_true]
        exact hc
      have hstep : findTermIdx (c :: u') = findTermIdx u' + 1 := by
        simp only [findTermIdx]
        rw [if_neg (by simp [hf])]
      have hu' : findTermIdx u' < u'.length := by
        rw [hstep, List.length_cons] at h
        omega
      have hcx : termAt (c :: (u' ++ x)) = false := by
        by_contra hx
        rw [Bool.not_eq_false] at hx
        have hex := termAt_exhaustion (c :: u') x
          (by simpa [List.cons_append] using hx) hf
        rw [hstep, List.length_cons] at hex
        omega
      simp only [List.cons_append, findTermIdx, List.append_eq]
      rw [if_neg (by simp [hcx]), if_neg (by simp [hf]), ih x hu']

/-- C9: the Result Parser reads only the block following the first
occurrence of `SPECIES DETECTED:` — whenever the header occurs in `s₁` and
the first block is closed inside `s₁` (by either terminator: a blank line
or a `DETAILED ANALYSIS:` occurrence), the parse of `s₁ ++ s₂` does not
depend on `s₂` at all; likewise with an explicit blank-line separator the
parse of `s₁ ++ "\n\n" ++ s₂` never depends on `s₂`.  So species listed
only in a later section — after the first block's terminating blank line or
`DETAILED ANALYSIS:` line — never appear; concretely, a second species
section listing only `Wolf` contributes nothing in either scenario. -/
theorem parser_first_section_only :
    (∀ s₁ s₂ s₂' : String,
      containsSpeciesHeader s₁ = true → firstBlockClosed s₁ = true →
      parseSpeciesFromAnalysis (s₁ ++ s₂) =
        parseSpeciesFromAnalysis (s₁ ++ s₂')) ∧
    (∀ s₁ s₂ s₂' : String, containsSpeciesHeader s₁ = true →
      parseSpeciesFromAnalysis (s₁ ++ ("\n\n") ++ s₂) =
        parseSpeciesFromAnalysis (s₁ ++ ("\n\n") ++ s₂')) ∧
    parseSpeciesFromAnalysis
        ("SPECIES DETECTED:\n- Fox\nDETAILED ANALYSIS: x\nSPECIES DETECTED:\n- Wolf") =
      [("Fox")] ∧
    ("Wolf") ∉ parseSpeciesFromAnalysis
      ("SPECIES DETECTED:\n- Fox\nDETAILED ANALYSIS: x\nSPECIES DETECTED:\n- Wolf") ∧
    parseSpeciesFromAnalysis
        ("SPECIES DETECTED:\n- Fox\n\nSPECIES DETECTED:\n- Wolf") = [("Fox")] ∧
    ("Wolf") ∉ parseSpeciesFromAnalysis
      ("SPECIES DETECTED:\n- Fox\n\nSPECIES DETECTED:\n- Wolf") := by
  refine ⟨?_, ?_, by decide, by decide, by decide, by decide⟩
  · intro s₁ s₂ s₂' hhd hcl
    rcases Option.isSome_iff_exists.mp hhd with ⟨i, hi⟩
    have hfind : ∀ t : String,
        findIdxCI speciesHeaderChars (s₁.data ++ t.data) = some i :=
      fun t => findIdxCI_append_any speciesHeaderChars s₁.data i t.data hi
    have hclosed : findTermIdx (s₁.data.drop (i + speciesHeaderChars.length)) <
        (s₁.data.drop (i + speciesHeaderChars.length)).length := by
      unfold firstBlockClosed at hcl
      rw [hi] at hcl
      exact of_decide_eq_true hcl
    have hbound := findIdxCI_bound speciesHeaderChars s₁.data i hi
    have hdrop : ∀ t : String,
        (s₁.data ++ t.data).drop (i + speciesHeaderChars.length) =
          s₁.data.drop (i + speciesHeaderChars.length) ++ t.data :=
      fun t => List.drop_append_of_le_length hbound
    have e₂ := parseSpecies_eq_of_find (s₁ ++ s₂) i
      (by rw [String.data_append]; exact hfind s₂)
    have e₂' := parseSpecies_eq_of_find (s₁ ++ s₂') i
      (by rw [String.data_append]; exact hfind s₂')
    rw [e₂, e₂', String.data_append, String.data_append, hdrop s₂, hdrop s₂',
      findTermIdx_append_closed _ _ hclosed, findTermIdx_append_closed _ _ hclosed,
      List.take_append_of_le_length (le_of_lt hclosed),
      List.take_append_of_le_length (le_of_lt hclosed)]
  · intro s₁ s₂ s₂' hhd
    rcases Option.isSome_iff_exists.mp hhd with ⟨i, hi⟩
    have hdata : ∀ t : String, (s₁ ++ ("\n\n") ++ t).data =
        s₁.data ++ '\n' :: '\n' :: t.data := by
      intro t
      rw [String.data_append, String.data_append, List.append_assoc]
      rfl
    have hfind : ∀ t : String,
        findIdxCI speciesHeaderChars (s₁.data ++ '\n' :: '\n' :: t.data) =
          some i :=
      fun t => findIdxCI_append_nl speciesHeaderChars speciesHeader_no_newline
        s₁.data i ('\n' :: t.data) hi
    have hbound := findIdxCI_bound speciesHeaderChars s₁.data i hi
    have hdrop : ∀ t : String,
        (s₁.data ++ '\n' :: '\n' :: t.data).drop (i + speciesHeaderChars.length) =
          s₁.data.drop (i + speciesHeaderChars.length) ++ '\n' :: '\n' :: t.data :=
      fun t => List.drop_append_of_le_length hbound
    have hterm := findTermIdx_append s₂.data s₂'.data
      (s₁.data.drop (i + speciesHeaderChars.length))
    have htle : findTermIdx
        (s₁.data.drop (i + speciesHeaderChars.length) ++ '\n' :: '\n' :: s₂'.data) ≤
        (s₁.data.drop (i + speciesHeaderChars.length)).length :=
      findTermIdx_le_append s₂'.data (s₁.data.drop (i + speciesHeaderChars.length))
    have e₂ := parseSpecies_eq_of_find (s₁ ++ ("\n\n") ++ s₂) i
      (by rw [hdata s₂]; exact hfind s₂)
    have e₂' := parseSpecies_eq_of_find (s₁ ++ ("\n\n") ++ s₂') i
      (by rw [hdata s₂']; exact hfind s₂')
    rw [e₂, e₂', hdata s₂, hdata s₂', hdrop s₂, hdrop s₂', hterm,
      List.take_append_of_le_length htle, List.take_append_of_le_length htle]

theorem parser_first_section_only_witness :
    (parseSpeciesFromAnalysis
        (("SPECIES DETECTED:\n- Fox\nDETAILED ANALYSIS: done") ++
          ("\nSPECIES DETECTED:\n- Wolf")) =
      parseSpeciesFromAnalysis
        (("SPECIES DETECTED:\n- Fox\nDETAILED ANALYSIS: done") ++ (""))) ∧
    (parseSpeciesFromAnalysis
        (("SPECIES DETECTED:\n- Fox") ++ ("\n\n") ++
          ("SPECIES DETECTED:\n- Wolf")) =
      parseSpeciesFromAnalysis
        (("SPECIES DETECTED:\n- Fox") ++ ("\n\n") ++ (""))) :=
  ⟨parser_first_section_only.1
      ("SPECIES DETECTED:\n- Fox\nDETAILED ANALYSIS: done")
      ("\nSPECIES DETECTED:\n- Wolf") ("") (by decide) (by decide),
   parser_first_section_only.2.1 ("SPECIES DETECTED:\n- Fox")
      ("SPECIES DETECTED:\n- Wolf") ("") (by decide)⟩

end Wildlife
